import Mathlib

/-!
Verification of the qrvid chunk-envelope protocol and reconstruction engine.

The definitions below are a shallow embedding of the Python sources:
`src/qr_encoder.py` (`QREncoder.chunk_file_content`,
`QREncoder.encode_file_to_qr_codes`), `src/xml_wrapper.py`
(`XMLWrapper.create_xml_payload`), `src/file_assembler.py`
(`FileAssembler.verify_file_integrity`, `FileAssembler.reconstruct_file`,
`FileAssembler.save_reconstructed_files`) and `src/qr_decoder.py`
(chunk collection in `QRDecoder.scan_all_qr_codes`,
`QRDecoder.get_scan_statistics`).

Byte buffers are `List Nat` with every element `< 256`; text is `List Char`.
-/

namespace QRVid

/-- The standard base64 alphabet used by Python's `base64.b64encode`
(RFC 4648, `A-Z a-z 0-9 + /`). -/
def b64Alphabet : List Char :=
  ['A', 'B', 'C', 'D', 'E', 'F', 'G', 'H', 'I', 'J', 'K', 'L', 'M',
   'N', 'O', 'P', 'Q', 'R', 'S', 'T', 'U', 'V', 'W', 'X', 'Y', 'Z',
   'a', 'b', 'c', 'd', 'e', 'f', 'g', 'h', 'i', 'j', 'k', 'l', 'm',
   'n', 'o', 'p', 'q', 'r', 's', 't', 'u', 'v', 'w', 'x', 'y', 'z',
   '0', '1', '2', '3', '4', '5', '6', '7', '8', '9', '+', '/']

/-- Character for a 6-bit value. -/
def b64Char (n : Nat) : Char := b64Alphabet.getD n 'A'

/-- 6-bit value of an alphabet character (`none` for non-alphabet input,
in particular for the padding character). -/
def b64Index (c : Char) : Option Nat := b64Alphabet.findIdx? (· == c)

/-- Model of `base64.b64encode` (no line wrapping, `=` padding): three input
bytes become four alphabet characters; a final group of one or two bytes is
padded with `==` or `=`. -/
def b64EncodeCore : List Nat → List Char
  | [] => []
  | [a] => [b64Char (a / 4), b64Char (a % 4 * 16), '=', '=']
  | [a, b] => [b64Char (a / 4), b64Char (a % 4 * 16 + b / 16), b64Char (b % 16 * 4), '=']
  | a :: b :: c :: rest =>
    b64Char (a / 4) :: b64Char (a % 4 * 16 + b / 16) ::
      b64Char (b % 16 * 4 + c / 64) :: b64Char (c % 64) :: b64EncodeCore rest

/-- Model of `base64.b64decode` on well-formed input: groups of four
characters, padding allowed only in the final group; any other shape
(length not a multiple of four, bad padding, non-alphabet character) is a
decode failure, which Python raises as `binascii.Error` and
`FileAssembler.reconstruct_file` catches, returning `None`. -/
def b64DecodeCore : List Char → Option (List Nat)
  | [] => some []
  | c1 :: c2 :: c3 :: c4 :: rest =>
    if c3 = '=' ∧ c4 = '=' ∧ rest = [] then
      match b64Index c1, b64Index c2 with
      | some a, some b => some [a * 4 + b / 16]
      | _, _ => none
    else if c4 = '=' ∧ rest = [] then
      match b64Index c1, b64Index c2, b64Index c3 with
      | some a, some b, some c => some [a * 4 + b / 16, b % 16 * 16 + c / 4]
      | _, _, _ => none
    else
      match b64Index c1, b64Index c2, b64Index c3, b64Index c4, b64DecodeCore rest with
      | some a, some b, some c, some d, some l =>
        some ((a * 4 + b / 16) :: (b % 16 * 16 + c / 4) :: (c % 4 * 64 + d) :: l)
      | _, _, _, _, _ => none
  | _ => none

theorem b64Index_b64Char_lt : ∀ n < 64, b64Index (b64Char n) = some n := by decide

theorem b64Char_ne_pad : ∀ n < 64, b64Char n ≠ '=' := by decide

/-- Decoding inverts encoding on byte lists. -/
theorem b64_decode_encode (l : List Nat) (h : ∀ x ∈ l, x < 256) :
    b64DecodeCore (b64EncodeCore l) = some l := by
  induction l using b64EncodeCore.induct with
  | case1 => rfl
  | case2 a =>
    have ha : a < 256 := h a (by simp)
    have h1 := b64Index_b64Char_lt (a / 4) (by omega)
    have h2 := b64Index_b64Char_lt (a % 4 * 16) (by omega)
    simp [b64EncodeCore, b64DecodeCore, h1, h2]
    omega
  | case3 a b =>
    have ha : a < 256 := h a (by simp)
    have hb : b < 256 := h b (by simp)
    have h1 := b64Index_b64Char_lt (a / 4) (by omega)
    have h2 := b64Index_b64Char_lt (a % 4 * 16 + b / 16) (by omega)
    have h3 := b64Index_b64Char_lt (b % 16 * 4) (by omega)
    have hne : b64Char (b % 16 * 4) ≠ '=' := b64Char_ne_pad _ (by omega)
    simp [b64EncodeCore, b64DecodeCore, hne, h1, h2, h3]
    omega
  | case4 a b c rest ih =>
    have ha : a < 256 := h a (by simp)
    have hb : b < 256 := h b (by simp)
    have hc : c < 256 := h c (by simp)
    have hrest : b64DecodeCore (b64EncodeCore rest) = some rest := by
      refine ih fun x hx => h x ?_
      simp [hx]
    have h1 := b64Index_b64Char_lt (a / 4) (by omega)
    have h2 := b64Index_b64Char_lt (a % 4 * 16 + b / 16) (by omega)
    have h3 := b64Index_b64Char_lt (b % 16 * 4 + c / 64) (by omega)
    have h4 := b64Index_b64Char_lt (c % 64) (by omega)
    have hne3 : b64Char (b % 16 * 4 + c / 64) ≠ '=' := b64Char_ne_pad _ (by omega)
    have hne4 : b64Char (c % 64) ≠ '=' := b64Char_ne_pad _ (by omega)
    simp [b64EncodeCore, b64DecodeCore, hne3, hne4, h1, h2, h3, h4, hrest]
    omega

/-- Configuration fields used by the core (from `utils.get_default_config` /
`config.yaml`): `max_chunk_size` defaults to 2048,
`allow_partial_reconstruction` is absent from the defaults, so
`config.get("allow_partial_reconstruction", False)` yields `false`. -/
structure Config where
  max_chunk_size : Nat := 2048
  allow_partial_reconstruction : Bool := false
deriving DecidableEq, Repr

/-- The fixed `xml_template` of `XMLWrapper.__init__`, as a function of the
five fields:
`<doc page="{page_num}" x="@tariusdamon" file="{filename}" chunk="{chunk_id}" total="{total_chunks}">{content}</doc>`. -/
def xmlTemplate (page_num filename chunk_id total_chunks content : List Char) : List Char :=
  "<doc page=\"".toList ++ page_num ++ "\" x=\"@tariusdamon\" file=\"".toList ++ filename ++
    "\" chunk=\"".toList ++ chunk_id ++ "\" total=\"".toList ++ total_chunks ++
    "\">".toList ++ content ++ "</doc>".toList

/-- Decimal rendering of an integer field, as Python's `str.format` applies
to an `int` argument. -/
def natStr (n : Nat) : List Char := (Nat.repr n).toList

/-- The overhead computed in `QREncoder.chunk_file_content`: the length of
the template formatted with `page_num="999"`, `chunk_id="999"`,
`total_chunks="999"` and empty content. -/
def xml_overhead (filename : List Char) : Nat :=
  (xmlTemplate "999".toList filename "999".toList "999".toList []).length

/-- Fixed-size left-to-right slices of size `k` (the loop
`for i in range(0, len(b64_content), max_content_per_chunk)`).  The encoder
only calls this with `k > 0`; Python's `range` would reject step 0, and the
`k = 0` branch here is never reached from `chunk_file_content`. -/
def chunksOf (k : Nat) (l : List Char) : List (List Char) :=
  if k = 0 ∨ l = [] then [] else l.take k :: chunksOf k (l.drop k)
termination_by l.length
decreasing_by
  rename_i h
  push_neg at h
  have : l.length ≠ 0 := fun hl => h.2 (List.eq_nil_of_length_eq_zero hl)
  simp only [List.length_drop]
  omega

/-- Re-concatenating the slices gives back the original text. -/
theorem chunksOf_flatten (k : Nat) (hk : 0 < k) (l : List Char) :
    (chunksOf k l).flatten = l := by
  rw [chunksOf]
  by_cases h : k = 0 ∨ l = []
  · rcases h with h | h
    · omega
    · simp [h]
  · rw [if_neg h]
    have ih := chunksOf_flatten k hk (l.drop k)
    simp [ih]
termination_by l.length
decreasing_by
  push_neg at h
  have : l.length ≠ 0 := fun hl => h.2 (List.eq_nil_of_length_eq_zero hl)
  simp only [List.length_drop]
  omega

/-- Every slice is nonempty (`l.take k` of a nonempty list with `k > 0`). -/
theorem chunksOf_ne_nil (k : Nat) (l : List Char) :
    ∀ c ∈ chunksOf k l, c ≠ [] := by
  intro c hc
  rw [chunksOf] at hc
  by_cases h : k = 0 ∨ l = []
  · simp [h] at hc
  · rw [if_neg h] at hc
    push_neg at h
    have hk' : 0 < k := Nat.pos_of_ne_zero h.1
    have hl' : 0 < l.length := List.length_pos.2 h.2
    simp only [List.mem_cons] at hc
    rcases hc with hc | hc
    · subst hc
      simp only [ne_eq, List.take_eq_nil_iff, not_or]
      exact ⟨h.1, h.2⟩
    · exact chunksOf_ne_nil k (l.drop k) c hc
termination_by l.length
decreasing_by
  simp only [List.length_drop]
  omega

/-- `QREncoder.chunk_file_content`: base64-encode the raw bytes, compute the
XML overhead with three-digit placeholder fields, fail with `[]` when
`max_content_per_chunk <= 0`, otherwise slice the base64 text. -/
def chunk_file_content (config : Config) (content : List Nat) (filename : List Char) :
    List (List Char) :=
  let b64_content := b64EncodeCore content
  if config.max_chunk_size ≤ xml_overhead filename then []
  else chunksOf (config.max_chunk_size - xml_overhead filename) b64_content

/-- `XMLWrapper.create_xml_payload`: format the template with the actual
field values; if the result exceeds `max_chunk_size`, silently truncate the
content to `max_size - len(xml_content) + len(content)` characters when that
bound is positive, else return `None`. -/
def create_xml_payload (config : Config) (content : List Char) (page_num : Nat)
    (filename : List Char) (chunk_id total_chunks : Nat) : Option (List Char) :=
  let xml_content := xmlTemplate (natStr page_num) filename (natStr chunk_id)
    (natStr total_chunks) content
  if xml_content.length ≤ config.max_chunk_size then some xml_content
  else if 0 < (config.max_chunk_size : Int) - (xml_content.length : Int) + (content.length : Int)
  then
    some (xmlTemplate (natStr page_num) filename (natStr chunk_id) (natStr total_chunks)
      (content.take ((config.max_chunk_size : Int) - (xml_content.length : Int) +
        (content.length : Int)).toNat))
  else none

/-- One collected chunk, as stored by `QRDecoder.scan_all_qr_codes` in
`self.file_chunks[filename][chunk_id]`: of the parsed envelope fields this
model keeps the two the assembler reads, the declared `total` chunk count and
the base64 `content` slice. -/
structure ChunkData where
  total : Nat
  content : List Char
deriving DecidableEq, Repr

/-- A Python `dict` keyed by integer chunk id, in insertion order: updating
an existing key replaces its value in place, a new key is appended. -/
abbrev ChunkDict := List (Nat × ChunkData)

/-- `self.file_chunks[filename][chunk_id] = parsed_data`: dict item
assignment (overwrite in place, or append). -/
def dictInsert (k : Nat) (v : ChunkData) (d : ChunkDict) : ChunkDict :=
  if d.any (fun p => p.1 == k) then
    d.map (fun p => if p.1 = k then (k, v) else p)
  else d ++ [(k, v)]

/-- Ingest a sequence of `(chunk_id, data)` envelopes left to right, as the
scanning loop does for one file. -/
def ingestAll (s : List (Nat × ChunkData)) : ChunkDict :=
  s.foldl (fun d p => dictInsert p.1 p.2 d) []

/-- The dict's key list. -/
def dictKeys (d : ChunkDict) : List Nat := d.map Prod.fst

/-- `max(chunk["total"] for chunk in chunks.values())`; the fold base 0 is
never the result on the nonempty dicts this is called with, since declared
totals are nonnegative. -/
def maxTotal (d : ChunkDict) : Nat :=
  d.foldr (fun p m => Nat.max p.2.total m) 0

/-- `[i for i in range(1, total_chunks + 1) if i not in chunks]`. -/
def missingList (d : ChunkDict) (total : Nat) : List Nat :=
  (List.range' 1 total).filter (fun i => decide (i ∉ dictKeys d))

/-- One element of the heterogeneous Python list returned as the second
component of `verify_file_integrity`: either the string
`"No chunks available"` or a missing integer index. -/
inductive MissingItem where
  | msg (s : String)
  | idx (i : Nat)
deriving DecidableEq, Repr

/-- `FileAssembler.verify_file_integrity` (the `expected_checksum` argument
is unused by the function body and omitted): empty dict reports
`(False, ["No chunks available"])`; otherwise the declared total is the
maximum `total` over members and the result is `(False, missing)` or
`(True, [])`. -/
def verify_file_integrity (d : ChunkDict) : Bool × List MissingItem :=
  if d = [] then (false, [.msg "No chunks available"])
  else if missingList d (maxTotal d) ≠ [] then
    (false, (missingList d (maxTotal d)).map .idx)
  else (true, [])

/-- The per-file record built by `QRDecoder.get_scan_statistics`. -/
structure FileStats where
  chunks_found : Nat
  total_chunks : Nat
  complete : Bool
  missing : List Nat
deriving DecidableEq, Repr

/-- `QRDecoder.get_scan_statistics`, restricted to one file's dict. -/
def get_scan_statistics_entry (d : ChunkDict) : FileStats :=
  let total := if d = [] then 0 else maxTotal d
  { chunks_found := d.length
    total_chunks := total
    complete := decide (d.length = total)
    missing := missingList d total }

/-- Keys-ordered comparison used to model Python's `sorted(chunks.items())`:
tuples are compared by their first component; the dict's integer keys are
pairwise distinct, so the value components are never compared. -/
def keyLE (p q : Nat × ChunkData) : Prop := p.1 ≤ q.1

instance : DecidableRel keyLE := fun p q => inferInstanceAs (Decidable (p.1 ≤ q.1))

instance : IsTotal (Nat × ChunkData) keyLE := ⟨fun p q => Nat.le_total p.1 q.1⟩

instance : IsTrans (Nat × ChunkData) keyLE := ⟨fun _ _ _ h1 h2 => Nat.le_trans h1 h2⟩

/-- `sorted(chunks.items())`. -/
def sortByKey (d : ChunkDict) : ChunkDict := List.insertionSort keyLE d

/-- `FileAssembler.reconstruct_file`: sort the items by chunk id, join the
base64 contents, and decode; a base64 error yields `None`. -/
def reconstruct_file (d : ChunkDict) : Option (List Nat) :=
  b64DecodeCore ((sortByKey d).map (fun p => p.2.content)).flatten

/-- Per-file entry of the reconstruction report written by
`FileAssembler.save_reconstructed_files` (file-system writes are modelled as
succeeding, so the `save_failed` branch does not arise). -/
inductive ReportEntry where
  | saved (status : String) (content : List Nat) (checksum_match : Bool)
      (chunks_used : Nat) (missing : List MissingItem)
  | reconstruction_failed
  | incomplete (missing : List MissingItem) (chunks_available : Nat)
deriving DecidableEq, Repr

/-- The per-file body of `FileAssembler.save_reconstructed_files`,
parameterized by the fingerprint function (`calculate_checksum`, SHA-256)
and the manifest's expected checksum when present.  Mirrors the code:
reconstruct when complete or `allow_partial_reconstruction`; report status
`"complete"`/`"partial"`; `checksum_match` is `False` exactly when an
expected checksum is present and differs. -/
def processFile (config : Config) (hash : List Nat → String)
    (expected_checksum : Option String) (d : ChunkDict) : ReportEntry :=
  let v := verify_file_integrity d
  if v.1 || config.allow_partial_reconstruction then
    match reconstruct_file d with
    | some file_content =>
      let status := if v.1 then "complete" else "partial"
      let cm : Bool :=
        match expected_checksum with
        | some e => decide (hash file_content = e)
        | none => true
      .saved status file_content cm d.length (if v.1 then [] else v.2)
    | none => .reconstruction_failed
  else .incomplete v.2 d.length

/-- Metadata of one emitted QR code, as appended to `qr_files` by
`QREncoder.encode_file_to_qr_codes` (the image path is derived from
`page_num` and omitted). -/
structure QRInfo where
  page_num : Nat
  chunk_id : Nat
  total_chunks : Nat
  filename : List Char
deriving DecidableEq, Repr

/-- The per-chunk loop of `QREncoder.encode_file_to_qr_codes`: for each
`(chunk_id, chunk)` build the XML payload with the current shared counter as
`page_num`; a `None` payload is skipped (`continue`) without consuming a
counter value; QR image generation is modelled as succeeding, after which
the counter advances by one.  Returns the final counter and the emitted
records in emission order. -/
def encodeChunksLoop (config : Config) (filename : List Char) (total : Nat) :
    Nat → List (Nat × List Char) → Nat × List QRInfo
  | counter, [] => (counter, [])
  | counter, (chunk_id, chunk) :: rest =>
    match create_xml_payload config chunk counter filename chunk_id total with
    | none => encodeChunksLoop config filename total counter rest
    | some _ =>
      let r := encodeChunksLoop config filename total (counter + 1) rest
      (r.1, ⟨counter, chunk_id, total, filename⟩ :: r.2)

/-- `QREncoder.encode_file_to_qr_codes` for one file, threading the shared
`qr_counter` explicitly: chunk the content (1-based chunk ids), fail with no
output when chunking failed. -/
def encode_file_to_qr_codes (config : Config) (counter : Nat) (filename : List Char)
    (content : List Nat) : Nat × List QRInfo :=
  let chunks := chunk_file_content config content filename
  if chunks = [] then (counter, [])
  else encodeChunksLoop config filename chunks.length counter (chunks.enumFrom 1)

/-- `QREncoder.encode_all_files` restricted to the counter and emission
behaviour: one encoder instance starts with `qr_counter = 1` and processes
the files in order, accumulating all emitted QR records. -/
def encode_run (config : Config) (files : List (List Char × List Nat)) : Nat × List QRInfo :=
  files.foldl
    (fun acc f =>
      let r := encode_file_to_qr_codes config acc.1 f.1 f.2
      (r.1, acc.2 ++ r.2))
    (1, [])

/-- The complete chunk group a file's split produces, keyed by 1-based
chunk index with the declared total, as the collector would hold it after
ingesting every chunk. -/
def splitToGroup (config : Config) (content : List Nat) (filename : List Char) : ChunkDict :=
  let chunks := chunk_file_content config content filename
  (chunks.enumFrom 1).map (fun p => (p.1, ⟨chunks.length, p.2⟩))

theorem sortByKey_sorted (d : ChunkDict) : List.Sorted keyLE (sortByKey d) :=
  List.sorted_insertionSort keyLE d

theorem sortByKey_perm (d : ChunkDict) : List.Perm (sortByKey d) d :=
  List.perm_insertionSort keyLE d

/-- The complete split group is already in ascending key order. -/
theorem splitToGroup_sorted (config : Config) (content : List Nat) (filename : List Char) :
    List.Sorted keyLE (splitToGroup config content filename) := by
  have hfst : (splitToGroup config content filename).map Prod.fst
      = List.range' 1 (chunk_file_content config content filename).length := by
    simp only [splitToGroup, List.map_map]
    have : (Prod.fst ∘ fun p : Nat × List Char =>
        (p.1, (⟨(chunk_file_content config content filename).length, p.2⟩ : ChunkData)))
        = Prod.fst := rfl
    rw [this, List.enumFrom_map_fst]
  have hp : List.Pairwise (· < ·) ((splitToGroup config content filename).map Prod.fst) := by
    rw [hfst]; exact List.pairwise_lt_range' 1 _ 1
  have hp' := List.pairwise_map.1 hp
  exact hp'.imp fun h => Nat.le_of_lt h

/-- C1 core: reconstructing the complete split group returns the original
bytes. -/
theorem reconstruct_splitToGroup (config : Config) (content : List Nat) (filename : List Char)
    (hbytes : ∀ x ∈ content, x < 256)
    (hover : xml_overhead filename < config.max_chunk_size) :
    reconstruct_file (splitToGroup config content filename) = some content := by
  have hsort : sortByKey (splitToGroup config content filename)
      = splitToGroup config content filename :=
    (splitToGroup_sorted config content filename).insertionSort_eq
  have hcontents : (splitToGroup config content filename).map (fun p => p.2.content)
      = chunk_file_content config content filename := by
    simp only [splitToGroup, List.map_map]
    have : ((fun p : Nat × ChunkData => p.2.content) ∘ fun p : Nat × List Char =>
        (p.1, (⟨(chunk_file_content config content filename).length, p.2⟩ : ChunkData)))
        = Prod.snd := rfl
    rw [this, List.enumFrom_map_snd]
  have hchunks : chunk_file_content config content filename
      = chunksOf (config.max_chunk_size - xml_overhead filename) (b64EncodeCore content) := by
    rw [chunk_file_content, if_neg (by omega)]
  have hflat : (chunk_file_content config content filename).flatten = b64EncodeCore content := by
    rw [hchunks]
    exact chunksOf_flatten _ (by omega) _
  rw [reconstruct_file, hsort, hcontents, hflat]
  exact b64_decode_encode content hbytes

/-- C1: round-trip.  For every byte buffer and every configuration whose
`max_chunk_size` leaves room for at least one character of payload beyond
the computed XML overhead, splitting (base64-encoding then slicing, as
`chunk_file_content` does) and then reconstructing from the complete chunk
group (concatenating payloads in chunkIndex order and base64-decoding, as
`reconstruct_file` does) returns exactly the original bytes. -/
theorem roundtrip_split_reconstruct (config : Config) (content : List Nat)
    (filename : List Char) (hbytes : ∀ x ∈ content, x < 256)
    (hover : xml_overhead filename < config.max_chunk_size) :
    reconstruct_file (splitToGroup config content filename) = some content :=
  reconstruct_splitToGroup config content filename hbytes hover

/-- Witness for C1 at buffer `[72, 105, 33]` (`b"Hi!"`), filename `"a"`,
`max_chunk_size = 200`. -/
theorem roundtrip_split_reconstruct_witness :
    reconstruct_file (splitToGroup ⟨200, false⟩ [72, 105, 33] ['a']) = some [72, 105, 33] :=
  roundtrip_split_reconstruct ⟨200, false⟩ [72, 105, 33] ['a'] (by decide) (by decide)

/-- C2 counterexample: a zero-length buffer does not produce one chunk with
empty payload — `chunk_file_content` returns zero chunks (the loop over the
empty base64 text never runs). -/
theorem zero_length_counterexample :
    chunk_file_content ⟨2048, false⟩ [] ['a'] = [] ∧
    (chunk_file_content ⟨2048, false⟩ [] ['a']).length ≠ 1 := by
  have h1 : chunk_file_content ⟨2048, false⟩ [] ['a'] = [] := by
    rw [chunk_file_content, if_neg (by decide), chunksOf]
    simp [b64EncodeCore]
  exact ⟨h1, by simp [h1]⟩

/-- C2 amended: splitting a zero-length buffer produces zero chunks, and
`encode_file_to_qr_codes` then treats the file as failed, emitting no QR
records and leaving the shared counter unchanged. -/
theorem zero_length_split_empty (config : Config) (filename : List Char) (counter : Nat) :
    chunk_file_content config [] filename = [] ∧
    encode_file_to_qr_codes config counter filename [] = (counter, []) := by
  have h1 : chunk_file_content config [] filename = [] := by
    rw [chunk_file_content]
    by_cases h : config.max_chunk_size ≤ xml_overhead filename
    · rw [if_pos h]
    · rw [if_neg h, chunksOf]
      simp [b64EncodeCore]
  exact ⟨h1, by rw [encode_file_to_qr_codes]; simp [h1]⟩

/-- C5: reconstruction concatenates payloads sorted by `chunkIndex` as an
integer: a group holding indices 9 and 10 (ingested 10 first) places index
9's payload before index 10's, and in general the sorted item list is in
ascending numeric key order. -/
theorem reconstruct_numeric_order (c9 c10 : ChunkData) (d : ChunkDict) :
    reconstruct_file [(10, c10), (9, c9)] = b64DecodeCore (c9.content ++ c10.content) ∧
    List.Pairwise (· ≤ ·) (dictKeys (sortByKey d)) := by
  constructor
  · have hs : sortByKey [(10, c10), (9, c9)] = [(9, c9), (10, c10)] := rfl
    rw [reconstruct_file, hs]
    simp
  · exact List.pairwise_map.2 (sortByKey_sorted d)

/-- C8: when the computed XML overhead is at least `max_chunk_size`
(`max_content_per_chunk <= 0`), splitting fails for the whole file with an
empty result, and the encoder emits no chunks at all for that file. -/
theorem size_budget_failure (config : Config) (content : List Nat) (filename : List Char)
    (counter : Nat) (h : config.max_chunk_size ≤ xml_overhead filename) :
    chunk_file_content config content filename = [] ∧
    encode_file_to_qr_codes config counter filename content = (counter, []) := by
  have h1 : chunk_file_content config content filename = [] := by
    rw [chunk_file_content, if_pos h]
  exact ⟨h1, by rw [encode_file_to_qr_codes]; simp [h1]⟩

/-- Witness for C8: `max_chunk_size = 10` is below the 72-character overhead
for filename `"a"`. -/
theorem size_budget_failure_witness :
    chunk_file_content ⟨10, false⟩ [1, 2, 3] ['a'] = [] ∧
    encode_file_to_qr_codes ⟨10, false⟩ 5 ['a'] [1, 2, 3] = (5, []) :=
  size_budget_failure ⟨10, false⟩ [1, 2, 3] ['a'] 5 (by decide)

theorem maxTotal_nil : maxTotal [] = 0 := rfl

theorem maxTotal_cons (p : Nat × ChunkData) (d : ChunkDict) :
    maxTotal (p :: d) = Nat.max p.2.total (maxTotal d) := rfl

/-- Replacing every member's declared total by a constant `M` makes `M` the
group maximum (nonempty dict). -/
theorem maxTotal_map_const (M : Nat) (d : ChunkDict) (h : d ≠ []) :
    maxTotal (d.map (fun p => (p.1, ⟨M, p.2.content⟩))) = M := by
  induction d with
  | nil => exact absurd rfl h
  | cons p rest ih =>
    cases rest with
    | nil => simp [maxTotal]
    | cons q t =>
      have hr := ih (by simp)
      rw [List.map_cons, maxTotal_cons, hr]
      simp

/-- C3 counterexample: a group whose two members declare different
`chunkCount` values (2 and 1) is passed off as simply complete —
`verify_file_integrity` returns the ordinary `(True, [])` verdict and the
statistics entry says `complete` with no missing chunks; no distinct
inconsistency condition exists in either result. -/
theorem inconsistent_metadata_counterexample :
    ((1, ⟨2, ['Q', 'A']⟩) : Nat × ChunkData) ∈
        ([(1, ⟨2, ['Q', 'A']⟩), (2, ⟨1, ['=', '=']⟩)] : ChunkDict) ∧
    ((2, ⟨1, ['=', '=']⟩) : Nat × ChunkData) ∈
        ([(1, ⟨2, ['Q', 'A']⟩), (2, ⟨1, ['=', '=']⟩)] : ChunkDict) ∧
    (2 : Nat) ≠ (1 : Nat) ∧
    verify_file_integrity [(1, ⟨2, ['Q', 'A']⟩), (2, ⟨1, ['=', '=']⟩)] = (true, []) ∧
    get_scan_statistics_entry [(1, ⟨2, ['Q', 'A']⟩), (2, ⟨1, ['=', '=']⟩)] =
      ⟨2, 2, true, []⟩ := by
  refine ⟨by decide, by decide, by decide, by decide, by decide⟩

/-- C3 amended: the code silently resolves disagreeing `chunkCount`
declarations by taking the maximum: replacing every member's declared total
by the group maximum changes neither the integrity verdict nor the
statistics entry, and neither result carries any inconsistency condition. -/
theorem inconsistent_metadata_resolved_by_max (d : ChunkDict) (hne : d ≠ []) :
    verify_file_integrity d =
      verify_file_integrity (d.map (fun p => (p.1, ⟨maxTotal d, p.2.content⟩))) ∧
    get_scan_statistics_entry d =
      get_scan_statistics_entry (d.map (fun p => (p.1, ⟨maxTotal d, p.2.content⟩))) := by
  have hkeys : dictKeys (d.map (fun p => (p.1, (⟨maxTotal d, p.2.content⟩ : ChunkData)))) =
      dictKeys d := by
    simp [dictKeys, List.map_map]
  have hmax := maxTotal_map_const (maxTotal d) d hne
  have hne' : d.map (fun p => (p.1, (⟨maxTotal d, p.2.content⟩ : ChunkData))) ≠ [] := by
    simp [hne]
  have hmiss : ∀ t, missingList (d.map (fun p => (p.1, (⟨maxTotal d, p.2.content⟩ : ChunkData)))) t
      = missingList d t := by
    intro t
    rw [missingList, missingList, hkeys]
  constructor
  · rw [verify_file_integrity, verify_file_integrity, if_neg hne, if_neg hne', hmax, hmiss]
  · rw [get_scan_statistics_entry, get_scan_statistics_entry]
    simp only [if_neg hne, if_neg hne', hmax, hmiss, hkeys, List.length_map]

/-- Witness for C3's amended theorem at a concrete group with disagreeing
totals 2 and 1. -/
theorem inconsistent_metadata_resolved_by_max_witness :
    verify_file_integrity [(1, ⟨2, ['Q', 'A']⟩), (2, ⟨1, ['=', '=']⟩)] =
      verify_file_integrity
        (([(1, ⟨2, ['Q', 'A']⟩), (2, ⟨1, ['=', '=']⟩)] : ChunkDict).map
          (fun p => (p.1, ⟨maxTotal [(1, ⟨2, ['Q', 'A']⟩), (2, ⟨1, ['=', '=']⟩)], p.2.content⟩))) ∧
    get_scan_statistics_entry [(1, ⟨2, ['Q', 'A']⟩), (2, ⟨1, ['=', '=']⟩)] =
      get_scan_statistics_entry
        (([(1, ⟨2, ['Q', 'A']⟩), (2, ⟨1, ['=', '=']⟩)] : ChunkDict).map
          (fun p => (p.1, ⟨maxTotal [(1, ⟨2, ['Q', 'A']⟩), (2, ⟨1, ['=', '=']⟩)], p.2.content⟩))) :=
  inconsistent_metadata_resolved_by_max [(1, ⟨2, ['Q', 'A']⟩), (2, ⟨1, ['=', '=']⟩)] (by decide)

/-- The serialized envelope is the non-payload part plus the payload. -/
theorem xmlTemplate_length (p f c t s : List Char) :
    (xmlTemplate p f c t s).length = (xmlTemplate p f c t []).length + s.length := by
  simp [xmlTemplate]
  omega

/-- C9: whenever the envelope serializer returns a string, its length is at
most `max_chunk_size`; and when the fully formatted envelope exceeds the
limit while the non-payload part still fits, the serializer silently returns
`some` with the payload truncated to the prefix that fits — a strictly
shorter payload — instead of reporting a failure. -/
theorem payload_truncation (config : Config) (content : List Char) (page_num : Nat)
    (filename : List Char) (chunk_id total_chunks : Nat) :
    (∀ s, create_xml_payload config content page_num filename chunk_id total_chunks = some s →
      s.length ≤ config.max_chunk_size) ∧
    ((xmlTemplate (natStr page_num) filename (natStr chunk_id) (natStr total_chunks)
        []).length < config.max_chunk_size →
      config.max_chunk_size <
        (xmlTemplate (natStr page_num) filename (natStr chunk_id) (natStr total_chunks)
          content).length →
      create_xml_payload config content page_num filename chunk_id total_chunks =
        some (xmlTemplate (natStr page_num) filename (natStr chunk_id) (natStr total_chunks)
          (content.take (config.max_chunk_size -
            (xmlTemplate (natStr page_num) filename (natStr chunk_id) (natStr total_chunks)
              []).length))) ∧
      (content.take (config.max_chunk_size -
        (xmlTemplate (natStr page_num) filename (natStr chunk_id) (natStr total_chunks)
          []).length)).length < content.length) := by
  have hlen := xmlTemplate_length (natStr page_num) filename (natStr chunk_id)
    (natStr total_chunks) content
  constructor
  · intro s hs
    rw [create_xml_payload] at hs
    split at hs
    · rename_i hle
      cases hs
      exact hle
    · rename_i hgt
      split at hs
      · rename_i hpos
        cases hs
        rw [xmlTemplate_length, List.length_take]
        omega
      · exact absurd hs (by simp)
  · intro hbase hover
    have hm : (0 : Int) < (config.max_chunk_size : Int) -
        ((xmlTemplate (natStr page_num) filename (natStr chunk_id) (natStr total_chunks)
          content).length : Int) + (content.length : Int) := by
      omega
    have hmt : ((config.max_chunk_size : Int) -
        ((xmlTemplate (natStr page_num) filename (natStr chunk_id) (natStr total_chunks)
          content).length : Int) + (content.length : Int)).toNat =
        config.max_chunk_size -
          (xmlTemplate (natStr page_num) filename (natStr chunk_id) (natStr total_chunks)
            []).length := by
      omega
    constructor
    · rw [create_xml_payload, if_neg (by omega), if_pos hm, hmt]
    · rw [List.length_take]
      omega

/-- Witness for C9's truncation behaviour: with `max_chunk_size = 80`,
filename `"a"`, single-digit fields (non-payload part 66 characters) and a
30-character payload, the serializer keeps only the 14-character prefix yet
reports success, and the result fits the budget. -/
theorem payload_truncation_witness :
    create_xml_payload ⟨80, false⟩ (List.replicate 30 'A') 1 ['a'] 1 1 =
      some (xmlTemplate (natStr 1) ['a'] (natStr 1) (natStr 1)
        ((List.replicate 30 'A').take (80 -
          (xmlTemplate (natStr 1) ['a'] (natStr 1) (natStr 1) []).length))) ∧
    ((List.replicate 30 'A').take (80 -
      (xmlTemplate (natStr 1) ['a'] (natStr 1) (natStr 1) []).length)).length <
        (List.replicate 30 'A').length ∧
    (xmlTemplate (natStr 1) ['a'] (natStr 1) (natStr 1)
      ((List.replicate 30 'A').take (80 -
        (xmlTemplate (natStr 1) ['a'] (natStr 1) (natStr 1) []).length))).length ≤ 80 := by
  have h := payload_truncation ⟨80, false⟩ (List.replicate 30 'A') 1 ['a'] 1 1
  have h2 := h.2 (by decide) (by decide)
  exact ⟨h2.1, h2.2, h.1 _ h2.1⟩

/-- C10: when no expected fingerprint is available (`expected_checksum` is
`None`), every successfully saved reconstruction's report entry carries
`checksum_match = True`. -/
theorem checksum_match_without_manifest (config : Config) (hash : List Nat → String)
    (d : ChunkDict) (st : String) (content : List Nat) (cm : Bool) (cu : Nat)
    (mi : List MissingItem)
    (h : processFile config hash none d = .saved st content cm cu mi) : cm = true := by
  rw [processFile] at h
  split at h
  · split at h
    · simp only [ReportEntry.saved.injEq] at h
      exact h.2.2.1.symm
    · exact absurd h (by simp)
  · exact absurd h (by simp)

/-- Witness for C10: a one-chunk group decoding to the byte `[65]`, no
manifest entry; the saved report entry has `checksum_match = True`. -/
theorem checksum_match_without_manifest_witness : true = true :=
  checksum_match_without_manifest ⟨2048, false⟩ (fun _ => "x")
    [(1, ⟨1, ['Q', 'Q', '=', '=']⟩)] "complete" [65] true 1 [] (by decide)

/-- C4 counterexample: a group missing index 3 of 5, with present payloads
of 5, 5, 5 and 2 characters (as produced by slicing a 22-character base64
text in slices of 5 and dropping slice 3).  The gap-omitted concatenation is
17 characters, not valid base64, so with partial reconstruction enabled the
forced mode does not return bytes flagged `partial` — it fails with
`reconstruction_failed`. -/
theorem partial_policy_counterexample :
    verify_file_integrity
      [(1, ⟨5, ['A', 'A', 'A', 'A', 'A']⟩), (2, ⟨5, ['A', 'A', 'A', 'A', 'A']⟩),
       (4, ⟨5, ['A', 'A', 'A', 'A', 'A']⟩), (5, ⟨5, ['A', 'A']⟩)] =
      (false, [.idx 3]) ∧
    processFile ⟨2048, true⟩ (fun _ => "") none
      [(1, ⟨5, ['A', 'A', 'A', 'A', 'A']⟩), (2, ⟨5, ['A', 'A', 'A', 'A', 'A']⟩),
       (4, ⟨5, ['A', 'A', 'A', 'A', 'A']⟩), (5, ⟨5, ['A', 'A']⟩)] =
      .reconstruction_failed := by
  refine ⟨by decide, by decide⟩

/-- C4 amended: for a group declaring chunkCount 5 with index 3 absent, the
completeness check returns incomplete with missing list `[3]`; under the
default configuration reconstruction is refused and the report entry lists
the missing index; with the partial opt-in, the engine concatenates the
present payloads in index order with the gap omitted, and — provided that
concatenation still base64-decodes — the entry is flagged `partial` with the
bytes and the missing index (otherwise the decode error yields
`reconstruction_failed`, per the counterexample). -/
theorem partial_policy (c1 c2 c4 c5 : ChunkData) (hash : List Nat → String)
    (h1 : c1.total = 5) (h2 : c2.total = 5) (h4 : c4.total = 5) (h5 : c5.total = 5) :
    verify_file_integrity [(1, c1), (2, c2), (4, c4), (5, c5)] = (false, [.idx 3]) ∧
    processFile ⟨2048, false⟩ hash none [(1, c1), (2, c2), (4, c4), (5, c5)] =
      .incomplete [.idx 3] 4 ∧
    reconstruct_file [(1, c1), (2, c2), (4, c4), (5, c5)] =
      b64DecodeCore (c1.content ++ c2.content ++ c4.content ++ c5.content) ∧
    (∀ bytes, reconstruct_file [(1, c1), (2, c2), (4, c4), (5, c5)] = some bytes →
      processFile ⟨2048, true⟩ hash none [(1, c1), (2, c2), (4, c4), (5, c5)] =
        .saved "partial" bytes true 4 [.idx 3]) := by
  have hmax : maxTotal [(1, c1), (2, c2), (4, c4), (5, c5)] = 5 := by
    simp [maxTotal, h1, h2, h4, h5]
  have hmiss : missingList [(1, c1), (2, c2), (4, c4), (5, c5)] 5 = [3] := rfl
  have hver : verify_file_integrity [(1, c1), (2, c2), (4, c4), (5, c5)] =
      (false, [.idx 3]) := by
    rw [verify_file_integrity, if_neg (by simp), hmax, hmiss]
    simp
  have hsort : sortByKey [(1, c1), (2, c2), (4, c4), (5, c5)] =
      [(1, c1), (2, c2), (4, c4), (5, c5)] := by
    refine List.Sorted.insertionSort_eq ?_
    simp only [List.sorted_cons, List.mem_cons, List.mem_singleton, keyLE]
    refine ⟨?_, ?_, ?_, by simp⟩ <;> intro b hb <;>
      rcases hb with hb | hb | hb | hb <;> first | (subst hb; simp [keyLE]) | simp_all [keyLE]
  refine ⟨hver, ?_, ?_, ?_⟩
  · simp only [processFile, hver]
    simp
  · rw [reconstruct_file, hsort]
    simp
  · intro bytes hb
    simp only [processFile, hver, hb]
    simp

/-- Witness for C4's amended theorem: four 4-character payloads, totals 5;
the gap-omitted concatenation (16 characters of `A`) decodes to twelve zero
bytes, and the forced-mode report entry is `partial` with missing `[3]`. -/
theorem partial_policy_witness :
    verify_file_integrity
      [(1, ⟨5, ['A', 'A', 'A', 'A']⟩), (2, ⟨5, ['A', 'A', 'A', 'A']⟩),
       (4, ⟨5, ['A', 'A', 'A', 'A']⟩), (5, ⟨5, ['A', 'A', 'A', 'A']⟩)] = (false, [.idx 3]) ∧
    processFile ⟨2048, false⟩ (fun _ => "") none
      [(1, ⟨5, ['A', 'A', 'A', 'A']⟩), (2, ⟨5, ['A', 'A', 'A', 'A']⟩),
       (4, ⟨5, ['A', 'A', 'A', 'A']⟩), (5, ⟨5, ['A', 'A', 'A', 'A']⟩)] =
      .incomplete [.idx 3] 4 ∧
    processFile ⟨2048, true⟩ (fun _ => "") none
      [(1, ⟨5, ['A', 'A', 'A', 'A']⟩), (2, ⟨5, ['A', 'A', 'A', 'A']⟩),
       (4, ⟨5, ['A', 'A', 'A', 'A']⟩), (5, ⟨5, ['A', 'A', 'A', 'A']⟩)] =
      .saved "partial" (List.replicate 12 0) true 4 [.idx 3] := by
  have h := partial_policy ⟨5, ['A', 'A', 'A', 'A']⟩ ⟨5, ['A', 'A', 'A', 'A']⟩
    ⟨5, ['A', 'A', 'A', 'A']⟩ ⟨5, ['A', 'A', 'A', 'A']⟩ (fun _ => "")
    (by decide) (by decide) (by decide) (by decide)
  exact ⟨h.1, h.2.1, h.2.2.2 (List.replicate 12 0) (by decide)⟩

theorem mem_dictKeys {a : Nat} {d : ChunkDict} : a ∈ dictKeys d ↔ ∃ v, (a, v) ∈ d := by
  simp only [dictKeys, List.mem_map]
  constructor
  · rintro ⟨p, hp, rfl⟩
    exact ⟨p.2, by simpa using hp⟩
  · rintro ⟨v, hv⟩
    exact ⟨(a, v), hv, rfl⟩

theorem mem_dictInsert_elim {p : Nat × ChunkData} {k : Nat} {v : ChunkData} {d : ChunkDict}
    (h : p ∈ dictInsert k v d) : p = (k, v) ∨ p ∈ d := by
  rw [dictInsert] at h
  split at h
  · obtain ⟨q, hq, hfq⟩ := List.mem_map.1 h
    by_cases hk : q.1 = k
    · rw [if_pos hk] at hfq
      exact Or.inl hfq.symm
    · rw [if_neg hk] at hfq
      exact Or.inr (hfq ▸ hq)
  · rcases List.mem_append.1 h with h | h
    · exact Or.inr h
    · exact Or.inl (List.mem_singleton.1 h)

theorem self_mem_dictInsert (k : Nat) (v : ChunkData) (d : ChunkDict) :
    (k, v) ∈ dictInsert k v d := by
  rw [dictInsert]
  split
  · rename_i hany
    obtain ⟨q, hq, hqk⟩ := List.any_eq_true.1 hany
    refine List.mem_map.2 ⟨q, hq, ?_⟩
    rw [if_pos (by simpa using hqk)]
  · exact List.mem_append.2 (Or.inr (List.mem_singleton.2 rfl))

theorem mem_dictInsert_of_ne {p : Nat × ChunkData} {k : Nat} {v : ChunkData} {d : ChunkDict}
    (hp : p ∈ d) (hne : p.1 ≠ k) : p ∈ dictInsert k v d := by
  rw [dictInsert]
  split
  · exact List.mem_map.2 ⟨p, hp, by rw [if_neg hne]⟩
  · exact List.mem_append.2 (Or.inl hp)

theorem dictKeys_dictInsert (k : Nat) (v : ChunkData) (d : ChunkDict) (a : Nat) :
    a ∈ dictKeys (dictInsert k v d) ↔ a = k ∨ a ∈ dictKeys d := by
  rw [dictInsert]
  split
  · rename_i hany
    obtain ⟨q, hq, hqk⟩ := List.any_eq_true.1 hany
    have hkeys : dictKeys (d.map (fun p => if p.1 = k then (k, v) else p)) = dictKeys d := by
      rw [dictKeys, dictKeys, List.map_map]
      refine List.map_congr_left fun p _ => ?_
      by_cases hk : p.1 = k
      · simp [hk]
      · simp [hk]
    rw [hkeys]
    constructor
    · exact Or.inr
    · rintro (h | h)
      · have hqk' : q.1 = k := by simpa using hqk
        rw [h]
        refine mem_dictKeys.2 ⟨q.2, ?_⟩
        rw [← hqk']
        simpa using hq
      · exact h
  · rw [dictKeys, List.map_append]
    simp [dictKeys, or_comm]

theorem nodup_dictKeys_dictInsert (k : Nat) (v : ChunkData) (d : ChunkDict)
    (h : (dictKeys d).Nodup) : (dictKeys (dictInsert k v d)).Nodup := by
  rw [dictInsert]
  split
  · have hkeys : dictKeys (d.map (fun p => if p.1 = k then (k, v) else p)) = dictKeys d := by
      rw [dictKeys, dictKeys, List.map_map]
      refine List.map_congr_left fun p _ => ?_
      by_cases hk : p.1 = k
      · simp [hk]
      · simp [hk]
    rw [hkeys]
    exact h
  · rename_i hany
    have hnotin : k ∉ dictKeys d := by
      intro hk
      obtain ⟨v', hv'⟩ := mem_dictKeys.1 hk
      have : d.any (fun p => p.1 == k) = true :=
        List.any_eq_true.2 ⟨(k, v'), hv', by simp⟩
      exact hany this
    rw [dictKeys, List.map_append]
    simp only [List.nodup_append]
    refine ⟨h, by simp, ?_⟩
    intro a ha hb
    simp only [List.map_cons, List.map_nil, List.mem_singleton] at hb
    exact hnotin (hb ▸ ha)

/-- Characterization of the dict built by folding `dictInsert` over an
ingest sequence, when the sequence never maps one key to two different
values: the final pairs are exactly the starting pairs plus the ingested
ones. -/
theorem foldl_ingest_mem (s : List (Nat × ChunkData)) (d : ChunkDict)
    (hdet : ∀ k v v', ((k, v) ∈ d ∨ (k, v) ∈ s) → ((k, v') ∈ d ∨ (k, v') ∈ s) → v = v') :
    ∀ p, p ∈ s.foldl (fun d q => dictInsert q.1 q.2 d) d ↔ (p ∈ d ∨ p ∈ s) := by
  induction s generalizing d with
  | nil => simp
  | cons q t ih =>
    intro p
    rw [List.foldl_cons]
    have hred : ∀ r : Nat × ChunkData, r ∈ dictInsert q.1 q.2 d → r ∈ d ∨ r ∈ q :: t := by
      intro r hr
      rcases mem_dictInsert_elim hr with h | h
      · exact Or.inr (h ▸ List.mem_cons_self q t)
      · exact Or.inl h
    have hdet' : ∀ k v v',
        ((k, v) ∈ dictInsert q.1 q.2 d ∨ (k, v) ∈ t) →
        ((k, v') ∈ dictInsert q.1 q.2 d ∨ (k, v') ∈ t) → v = v' := by
      intro k v v' h1 h2
      have r1 : (k, v) ∈ d ∨ (k, v) ∈ q :: t := by
        rcases h1 with h1 | h1
        · exact hred _ h1
        · exact Or.inr (List.mem_cons_of_mem q h1)
      have r2 : (k, v') ∈ d ∨ (k, v') ∈ q :: t := by
        rcases h2 with h2 | h2
        · exact hred _ h2
        · exact Or.inr (List.mem_cons_of_mem q h2)
      exact hdet k v v' r1 r2
    rw [ih (dictInsert q.1 q.2 d) hdet' p]
    constructor
    · rintro (hp | hp)
      · rcases mem_dictInsert_elim hp with h | h
        · exact Or.inr (h ▸ List.mem_cons_self q t)
        · exact Or.inl h
      · exact Or.inr (List.mem_cons_of_mem q hp)
    · rintro (hp | hp)
      · by_cases hk : p.1 = q.1
        · have hv : p.2 = q.2 := by
            refine hdet p.1 p.2 q.2 (Or.inl ?_) (Or.inr ?_)
            · simpa using hp
            · rw [hk]
              exact List.mem_cons_self q t
          left
          have : p = (q.1, q.2) := by
            rw [← hk, ← hv]
          rw [this]
          exact self_mem_dictInsert q.1 q.2 d
        · exact Or.inl (mem_dictInsert_of_ne hp hk)
      · rcases List.mem_cons.1 hp with hp | hp
        · left
          rw [hp]
          exact self_mem_dictInsert q.1 q.2 d
        · exact Or.inr hp

theorem foldl_ingest_nodup (s : List (Nat × ChunkData)) (d : ChunkDict)
    (h : (dictKeys d).Nodup) :
    (dictKeys (s.foldl (fun d q => dictInsert q.1 q.2 d) d)).Nodup := by
  induction s generalizing d with
  | nil => exact h
  | cons q t ih =>
    rw [List.foldl_cons]
    exact ih _ (nodup_dictKeys_dictInsert q.1 q.2 d h)

theorem mem_ingestAll (s : List (Nat × ChunkData))
    (hdet : ∀ k v v', (k, v) ∈ s → (k, v') ∈ s → v = v') :
    ∀ p, p ∈ ingestAll s ↔ p ∈ s := by
  intro p
  rw [ingestAll, foldl_ingest_mem s []
    (by intro k v v' h1 h2; simp only [List.not_mem_nil, false_or] at h1 h2; exact hdet k v v' h1 h2)]
  simp

theorem ingestAll_nodup (s : List (Nat × ChunkData)) : (dictKeys (ingestAll s)).Nodup :=
  foldl_ingest_nodup s [] (by simp [dictKeys])

/-- In a dict with pairwise-distinct keys, the value is determined by the
key. -/
theorem det_of_nodupKeys (cs : ChunkDict) (h : (dictKeys cs).Nodup) :
    ∀ k v v', (k, v) ∈ cs → (k, v') ∈ cs → v = v' := by
  induction cs with
  | nil => simp
  | cons q t ih =>
    have hh : q.1 ∉ dictKeys t ∧ (dictKeys t).Nodup := by
      rw [dictKeys, List.map_cons] at h
      exact ⟨(List.nodup_cons.1 h).1, (List.nodup_cons.1 h).2⟩
    intro k v v' h1 h2
    rcases List.mem_cons.1 h1 with h1 | h1 <;> rcases List.mem_cons.1 h2 with h2 | h2
    · exact congrArg Prod.snd (h1.trans h2.symm)
    · exfalso
      refine hh.1 ?_
      rw [← h1]
      exact mem_dictKeys.2 ⟨v', h2⟩
    · exfalso
      refine hh.1 ?_
      rw [← h2]
      exact mem_dictKeys.2 ⟨v, h1⟩
    · exact ih hh.2 k v v' h1 h2

theorem maxTotal_perm {d₁ d₂ : ChunkDict} (h : List.Perm d₁ d₂) :
    maxTotal d₁ = maxTotal d₂ := by
  induction h with
  | nil => rfl
  | cons p _ ih => rw [maxTotal_cons, maxTotal_cons, ih]
  | swap p q l =>
    rw [maxTotal_cons, maxTotal_cons, maxTotal_cons, maxTotal_cons]
    exact max_left_comm q.2.total p.2.total (maxTotal l)
  | trans _ _ ih1 ih2 => exact ih1.trans ih2

theorem missingList_perm {d₁ d₂ : ChunkDict} (h : List.Perm d₁ d₂) (t : Nat) :
    missingList d₁ t = missingList d₂ t := by
  rw [missingList, missingList]
  refine List.filter_congr fun i _ => ?_
  have : i ∈ dictKeys d₁ ↔ i ∈ dictKeys d₂ := (h.map Prod.fst).mem_iff
  rw [decide_eq_decide]
  rw [this]

/-- The integrity verdict depends only on the dict's contents, not their
insertion order. -/
theorem verify_file_integrity_perm {d₁ d₂ : ChunkDict} (h : List.Perm d₁ d₂) :
    verify_file_integrity d₁ = verify_file_integrity d₂ := by
  have hnil : (d₁ = []) ↔ (d₂ = []) := by
    constructor
    · intro hh
      exact ((hh ▸ h).symm).eq_nil
    · intro hh
      exact (hh ▸ h).eq_nil
  rw [verify_file_integrity, verify_file_integrity, maxTotal_perm h, missingList_perm h]
  by_cases hd : d₁ = []
  · rw [if_pos hd, if_pos (hnil.1 hd)]
  · rw [if_neg hd, if_neg fun hh => hd (hnil.2 hh)]

/-- The statistics entry likewise depends only on the dict's contents. -/
theorem get_scan_statistics_entry_perm {d₁ d₂ : ChunkDict} (h : List.Perm d₁ d₂) :
    get_scan_statistics_entry d₁ = get_scan_statistics_entry d₂ := by
  have hnil : (d₁ = []) ↔ (d₂ = []) := by
    constructor
    · intro hh
      exact ((hh ▸ h).symm).eq_nil
    · intro hh
      exact (hh ▸ h).eq_nil
  have htot : (if d₁ = [] then 0 else maxTotal d₁) = (if d₂ = [] then 0 else maxTotal d₂) := by
    by_cases hd : d₁ = []
    · rw [if_pos hd, if_pos (hnil.1 hd)]
    · rw [if_neg hd, if_neg fun hh => hd (hnil.2 hh), maxTotal_perm h]
  rw [get_scan_statistics_entry, get_scan_statistics_entry]
  simp only [htot, missingList_perm h, h.length_eq]

/-- Strict key order for `eq_of_perm_of_sorted`. -/
def keyLT (p q : Nat × ChunkData) : Prop := p.1 < q.1

instance : IsAntisymm (Nat × ChunkData) keyLT :=
  ⟨fun _ _ h1 h2 => absurd (Nat.lt_trans h1 h2) (Nat.lt_irrefl _)⟩

/-- With pairwise-distinct keys the sorted item list is strictly
key-increasing. -/
theorem sortByKey_sorted_lt (d : ChunkDict) (nd : (dictKeys d).Nodup) :
    List.Pairwise keyLT (sortByKey d) := by
  have h1 : List.Pairwise keyLE (sortByKey d) := sortByKey_sorted d
  have h2 : (dictKeys (sortByKey d)).Nodup :=
    (((sortByKey_perm d).map Prod.fst).nodup_iff).2 nd
  have h3 : List.Pairwise (fun a b : Nat × ChunkData => a.1 ≠ b.1) (sortByKey d) :=
    List.pairwise_map.1 h2
  exact (h1.and h3).imp fun h => Nat.lt_of_le_of_ne h.1 h.2

/-- Two dicts with the same pairs (distinct keys) sort identically. -/
theorem sortByKey_eq_of_perm {d₁ d₂ : ChunkDict} (h : List.Perm d₁ d₂)
    (nd : (dictKeys d₁).Nodup) : sortByKey d₁ = sortByKey d₂ := by
  have nd₂ : (dictKeys d₂).Nodup := ((h.map Prod.fst).nodup_iff).1 nd
  have hp : List.Perm (sortByKey d₁) (sortByKey d₂) :=
    (sortByKey_perm d₁).trans (h.trans (sortByKey_perm d₂).symm)
  exact List.eq_of_perm_of_sorted hp (sortByKey_sorted_lt d₁ nd) (sortByKey_sorted_lt d₂ nd₂)

/-- C6: order independence of collection.  Let `cs` be a file's chunks (one
value per index) and `s` any ingest sequence containing exactly the same
envelopes — any permutation, possibly with duplicated chunks (a later ingest
of the same index overwrites the earlier one).  Ingesting `s` yields the
same integrity verdict, the same statistics entry and the same reconstructed
bytes as ingesting `cs` itself. -/
theorem order_independence (cs s : List (Nat × ChunkData))
    (hnd : (dictKeys cs).Nodup) (hmem : ∀ p, p ∈ s ↔ p ∈ cs) :
    verify_file_integrity (ingestAll s) = verify_file_integrity (ingestAll cs) ∧
    get_scan_statistics_entry (ingestAll s) = get_scan_statistics_entry (ingestAll cs) ∧
    reconstruct_file (ingestAll s) = reconstruct_file (ingestAll cs) := by
  have hdet_cs : ∀ k v v', (k, v) ∈ cs → (k, v') ∈ cs → v = v' := det_of_nodupKeys cs hnd
  have hdet_s : ∀ k v v', (k, v) ∈ s → (k, v') ∈ s → v = v' := fun k v v' h1 h2 =>
    hdet_cs k v v' ((hmem _).1 h1) ((hmem _).1 h2)
  have hm1 := mem_ingestAll s hdet_s
  have hm2 := mem_ingestAll cs hdet_cs
  have hmm : ∀ p, p ∈ ingestAll s ↔ p ∈ ingestAll cs := fun p =>
    (hm1 p).trans ((hmem p).trans (hm2 p).symm)
  have nd1 : (dictKeys (ingestAll s)).Nodup := ingestAll_nodup s
  have nd2 : (dictKeys (ingestAll cs)).Nodup := ingestAll_nodup cs
  have nd1' : (ingestAll s).Nodup := List.Nodup.of_map Prod.fst nd1
  have nd2' : (ingestAll cs).Nodup := List.Nodup.of_map Prod.fst nd2
  have hperm : List.Perm (ingestAll s) (ingestAll cs) :=
    (List.perm_ext_iff_of_nodup nd1' nd2').2 hmm
  refine ⟨verify_file_integrity_perm hperm, get_scan_statistics_entry_perm hperm, ?_⟩
  rw [reconstruct_file, reconstruct_file, sortByKey_eq_of_perm hperm nd1]

/-- Witness for C6: two chunks ingested reversed and with a duplicate give
the same verdict, statistics and bytes as the natural order. -/
theorem order_independence_witness :
    verify_file_integrity (ingestAll [(2, ⟨2, ['k', 'h']⟩), (1, ⟨2, ['S', 'G']⟩),
        (2, ⟨2, ['k', 'h']⟩)]) =
      verify_file_integrity (ingestAll [(1, ⟨2, ['S', 'G']⟩), (2, ⟨2, ['k', 'h']⟩)]) ∧
    get_scan_statistics_entry (ingestAll [(2, ⟨2, ['k', 'h']⟩), (1, ⟨2, ['S', 'G']⟩),
        (2, ⟨2, ['k', 'h']⟩)]) =
      get_scan_statistics_entry (ingestAll [(1, ⟨2, ['S', 'G']⟩), (2, ⟨2, ['k', 'h']⟩)]) ∧
    reconstruct_file (ingestAll [(2, ⟨2, ['k', 'h']⟩), (1, ⟨2, ['S', 'G']⟩),
        (2, ⟨2, ['k', 'h']⟩)]) =
      reconstruct_file (ingestAll [(1, ⟨2, ['S', 'G']⟩), (2, ⟨2, ['k', 'h']⟩)]) :=
  order_independence [(1, ⟨2, ['S', 'G']⟩), (2, ⟨2, ['k', 'h']⟩)]
    [(2, ⟨2, ['k', 'h']⟩), (1, ⟨2, ['S', 'G']⟩), (2, ⟨2, ['k', 'h']⟩)]
    (by decide) (by intro p; constructor <;> (intro h; simp only [List.mem_cons] at h ⊢; tauto))

/-- The per-chunk loop emits exactly the consecutive counter values
`counter, counter+1, …` and returns the counter advanced by the number of
emissions. -/
theorem encodeChunksLoop_pages (config : Config) (filename : List Char) (total : Nat) :
    ∀ (ps : List (Nat × List Char)) (counter : Nat),
      (encodeChunksLoop config filename total counter ps).2.map (fun q => q.page_num) =
        List.range' counter (encodeChunksLoop config filename total counter ps).2.length ∧
      (encodeChunksLoop config filename total counter ps).1 =
        counter + (encodeChunksLoop config filename total counter ps).2.length := by
  intro ps
  induction ps with
  | nil =>
    intro counter
    simp [encodeChunksLoop]
  | cons q t ih =>
    intro counter
    obtain ⟨cid, chunk⟩ := q
    rw [encodeChunksLoop]
    cases hx : create_xml_payload config chunk counter filename cid total with
    | none => exact ih counter
    | some s =>
      have iht := ih (counter + 1)
      simp only [List.map_cons, List.length_cons, iht.1, iht.2]
      constructor
      · rw [List.range'_succ]
      · omega

theorem encode_file_pages (config : Config) (counter : Nat) (filename : List Char)
    (content : List Nat) :
    (encode_file_to_qr_codes config counter filename content).2.map (fun q => q.page_num) =
      List.range' counter (encode_file_to_qr_codes config counter filename content).2.length ∧
    (encode_file_to_qr_codes config counter filename content).1 =
      counter + (encode_file_to_qr_codes config counter filename content).2.length := by
  rw [encode_file_to_qr_codes]
  split
  · simp
  · exact encodeChunksLoop_pages config filename _ _ counter

/-- C7: global sequence numbering.  Over any multi-file encode run with one
encoder instance, the emitted `page_num` values are exactly
`1, 2, …, n` in emission order — drawn from the single shared counter, hence
globally unique and strictly increasing — and the final counter is one past
the last assigned value, even though each file's `chunk_id` restarts at 1. -/
theorem global_sequence_numbering (config : Config) (files : List (List Char × List Nat)) :
    (encode_run config files).2.map (fun q => q.page_num) =
      List.range' 1 (encode_run config files).2.length ∧
    List.Pairwise (· < ·) ((encode_run config files).2.map (fun q => q.page_num)) ∧
    (encode_run config files).1 = 1 + (encode_run config files).2.length := by
  have main : ∀ (fs : List (List Char × List Nat)) (acc : Nat × List QRInfo),
      acc.2.map (fun q => q.page_num) = List.range' 1 acc.2.length →
      acc.1 = 1 + acc.2.length →
      (fs.foldl (fun acc f =>
          ((encode_file_to_qr_codes config acc.1 f.1 f.2).1,
            acc.2 ++ (encode_file_to_qr_codes config acc.1 f.1 f.2).2)) acc).2.map
          (fun q => q.page_num) =
        List.range' 1 (fs.foldl (fun acc f =>
          ((encode_file_to_qr_codes config acc.1 f.1 f.2).1,
            acc.2 ++ (encode_file_to_qr_codes config acc.1 f.1 f.2).2)) acc).2.length ∧
      (fs.foldl (fun acc f =>
          ((encode_file_to_qr_codes config acc.1 f.1 f.2).1,
            acc.2 ++ (encode_file_to_qr_codes config acc.1 f.1 f.2).2)) acc).1 =
        1 + (fs.foldl (fun acc f =>
          ((encode_file_to_qr_codes config acc.1 f.1 f.2).1,
            acc.2 ++ (encode_file_to_qr_codes config acc.1 f.1 f.2).2)) acc).2.length := by
    intro fs
    induction fs with
    | nil => exact fun acc h1 h2 => ⟨h1, h2⟩
    | cons f t ih =>
      intro acc h1 h2
      rw [List.foldl_cons]
      have hf := encode_file_pages config acc.1 f.1 f.2
      refine ih _ ?_ ?_
      · rw [List.map_append, List.length_append, h1, hf.1, h2, List.range'_append_1]
        exact congrArg (List.range' 1) (Nat.add_comm _ _)
      · rw [List.length_append, hf.2, h2]
        omega
  have h := main files (1, []) (by simp) (by simp)
  have hrun : encode_run config files = files.foldl (fun acc f =>
      ((encode_file_to_qr_codes config acc.1 f.1 f.2).1,
        acc.2 ++ (encode_file_to_qr_codes config acc.1 f.1 f.2).2)) (1, []) := rfl
  rw [hrun]
  refine ⟨h.1, ?_, h.2⟩
  rw [h.1]
  exact List.pairwise_lt_range' 1 _ 1

end QRVid
